import Mathlib

/-!
# Verification of the Hashcash proof-of-work codec and engine

A shallow embedding, in Lean 4, of the Hashcash-style proof-of-work code of
`pow-word-of-wisdom` (package `pow`, file `hashcash.go`, plus the
proof-of-work TCP handler), together with theorems checking the
natural-language specification of that code.

Modelling conventions:
* Go byte slices are `List Nat` (each element intended `< 256`);
  Go strings are `List Char`.
* Go `uint` / `uint8` values are `Nat` with explicit reduction modulo
  `2 ^ 64` / `2 ^ 8` where the source converts; Go `int64` is `Int`
  with explicit two's-complement wrap-around where the source may overflow.
* A Go runtime panic (slice index out of range) is `Option.none`.
* SHA-256 is kept abstract: functions that hash take the digest function as
  an explicit parameter `hashFn : List Char → List Nat`; where a property
  needs it, the hypothesis `∀ s, (hashFn s).length = 32` records the digest
  length guaranteed by the SHA-256 library.
-/

namespace PowWow

/-! ## The bit test (`checkBits`, hashcash.go:204-256)

`checkBits(hash []byte, bits uint)` checks that the digest has at least
`bits` leading zero bits.  The Go code slices `hash[:quotient]` (a panic
when `quotient > len(hash)`) and indexes `hash[quotient]` (a panic when
`quotient = len(hash)`); those panics are modelled by `none`. -/

def checkBits (hash : List Nat) (bits : Nat) : Option Bool :=
  let modulo := bits % 8
  let quotient := bits / 8
  if quotient > hash.length then
    none
  else if (hash.take quotient).any (fun b => b != 0) then
    some false
  else if modulo > 0 then
    match hash[quotient]? with
    | none => none
    | some b =>
      match modulo with
      | 1 => if b > 127 then some false else some true
      | 2 => if b > 63 then some false else some true
      | 3 => if b > 31 then some false else some true
      | 4 => if b > 15 then some false else some true
      | 5 => if b > 7 then some false else some true
      | 6 => if b > 3 then some false else some true
      | 7 => if b > 1 then some false else some true
      | _ => some true
  else
    some true

/-- Bit `i` of a byte sequence, counting from the most significant bit of
the first byte (the spec's "leading" order): bit `i` lives in byte `i / 8`
at position `i % 8` from the top. -/
def msbBit (d : List Nat) (i : Nat) : Nat :=
  d.getD (i / 8) 0 / 2 ^ (7 - i % 8) % 2

/-- The spec's notion "`d` has at least `n` leading zero bits". -/
def hasLeadingZeroBits (d : List Nat) (n : Nat) : Prop :=
  ∀ i, i < n → msbBit d i = 0

instance (d : List Nat) (n : Nat) : Decidable (hasLeadingZeroBits d n) :=
  Nat.decidableBallLT n fun i _ => msbBit d i = 0

set_option maxRecDepth 2000 in
/-- For a single byte, "top `r` bits clear" is the same as "value below
`2 ^ (8 - r)`". -/
theorem byte_top_bits_iff :
    ∀ b, b < 256 → ∀ r, r ≤ 8 →
      ((∀ j, j < r → b / 2 ^ (7 - j) % 2 = 0) ↔ b < 2 ^ (8 - r)) := by
  decide

theorem checkBits_some_true_iff (d : List Nat) (bits : Nat)
    (h : bits / 8 < d.length) :
    checkBits d bits = some true ↔
      ((∀ b ∈ d.take (bits / 8), b = 0) ∧
        (0 < bits % 8 → d.getD (bits / 8) 0 < 2 ^ (8 - bits % 8))) := by
  have hq : ¬ (bits / 8 > d.length) := by omega
  have hget : d[bits / 8]? = some (d.getD (bits / 8) 0) := by
    rw [List.getElem?_eq_getElem h, List.getD_eq_getElem d 0 h]
  obtain ⟨bq, hbq⟩ : ∃ x, d.getD (bits / 8) 0 = x := ⟨_, rfl⟩
  rw [hbq] at hget
  rw [hbq]
  by_cases ha : (d.take (bits / 8)).any (fun b => b != 0)
  · have hx : ¬ (∀ b ∈ d.take (bits / 8), b = 0) := by
      simp only [List.any_eq_true, bne_iff_ne, ne_eq] at ha
      obtain ⟨b, hb, hbne⟩ := ha
      exact fun hall => hbne (hall b hb)
    simp only [checkBits, if_neg hq, if_pos ha]
    simp [hx]
  · have hx : ∀ b ∈ d.take (bits / 8), b = 0 := by
      simp only [List.any_eq_true, bne_iff_ne, ne_eq] at ha
      push_neg at ha
      exact ha
    have hr8 : bits % 8 < 8 := Nat.mod_lt _ (by norm_num)
    obtain ⟨r, hrdef⟩ : ∃ r, bits % 8 = r := ⟨_, rfl⟩
    simp only [checkBits, if_neg hq, if_neg ha, hget, hrdef]
    rw [hrdef] at hr8
    interval_cases r <;> simp [iff_true_intro hx, ite_eq_iff] <;> omega

theorem checkBits_zero (d : List Nat) : checkBits d 0 = some true := by
  simp [checkBits]

/-- Bytes of the `bits / 8`-prefix are all zero exactly when the first
`8 * (bits / 8)` leading bits are all zero. -/
theorem take_zero_iff_bits (d : List Nat) (q : Nat) (hq : q ≤ d.length)
    (hbytes : ∀ b ∈ d, b < 256) :
    (∀ b ∈ d.take q, b = 0) ↔ ∀ i, i < 8 * q → msbBit d i = 0 := by
  constructor
  · intro hz i hi
    have hiq : i / 8 < q := by omega
    have hilen : i / 8 < d.length := by omega
    have : d.getD (i / 8) 0 = 0 := by
      apply hz
      rw [List.getD_eq_getElem d 0 hilen]
      rw [List.mem_take_iff_getElem]
      exact ⟨i / 8, by omega, rfl⟩
    simp only [msbBit, this]
    simp
  · intro hz b hb
    rw [List.mem_take_iff_getElem] at hb
    obtain ⟨i, hi, rfl⟩ := hb
    have hilen : i < d.length := by omega
    have hlt : d[i] < 256 := hbytes _ (List.getElem_mem _)
    have hbit : ∀ j, j < 8 → d[i] / 2 ^ (7 - j) % 2 = 0 := by
      intro j hj
      have h1 : (8 * i + j) / 8 = i := by omega
      have h2 : (8 * i + j) % 8 = j := by omega
      have := hz (8 * i + j) (by omega)
      simp only [msbBit] at this
      rw [h1, h2, List.getD_eq_getElem d 0 hilen] at this
      exact this
    have := (byte_top_bits_iff d[i] hlt 8 (le_refl 8)).mp hbit
    simpa using this

/-- C1: for `bits < 64` and digests of length at least 8 made of bytes,
`checkBits` accepts exactly the digests with at least `bits` leading zero
bits; equivalently the first `bits / 8` bytes are zero and, when
`bits % 8 > 0`, the byte at index `bits / 8` is below `2 ^ (8 - bits % 8)`;
the result only depends on the bytes up to index `bits / 8`; and `bits = 0`
always passes. -/
theorem checkBits_spec (d : List Nat) (bits : Nat)
    (hbits : bits < 64) (hlen : 8 ≤ d.length) (hbytes : ∀ b ∈ d, b < 256) :
    (checkBits d bits = some true ↔ hasLeadingZeroBits d bits) ∧
    (checkBits d bits = some true ↔
      ((∀ b ∈ d.take (bits / 8), b = 0) ∧
        (0 < bits % 8 → d.getD (bits / 8) 0 < 2 ^ (8 - bits % 8)))) ∧
    (∀ d', 8 ≤ d'.length → (∀ i, i ≤ bits / 8 → d[i]? = d'[i]?) →
      checkBits d bits = checkBits d' bits) ∧
    checkBits d 0 = some true := by
  have hqlt : bits / 8 < d.length := by omega
  have hiff := checkBits_some_true_iff d bits hqlt
  have hqlen : bits / 8 ≤ d.length := le_of_lt hqlt
  refine ⟨?_, hiff, ?_, checkBits_zero d⟩
  · rw [hiff]
    have hsplit := take_zero_iff_bits d (bits / 8) hqlen hbytes
    have hq8 : 8 * (bits / 8) ≤ bits := by omega
    have hr8 : bits % 8 < 8 := Nat.mod_lt _ (by norm_num)
    have hbyteq : d.getD (bits / 8) 0 < 256 := by
      rw [List.getD_eq_getElem d 0 hqlt]
      exact hbytes _ (List.getElem_mem _)
    constructor
    · rintro ⟨hz, hhead⟩ i hi
      by_cases hcase : i < 8 * (bits / 8)
      · exact (hsplit.mp hz) i hcase
      · have hieq : i / 8 = bits / 8 := by omega
        have hrpos : 0 < bits % 8 := by omega
        have hlt := hhead hrpos
        have := (byte_top_bits_iff (d.getD (bits / 8) 0) hbyteq (bits % 8)
          (le_of_lt hr8)).mpr hlt
        have hj : i % 8 < bits % 8 := by omega
        simp only [msbBit]
        rw [hieq]
        exact this (i % 8) hj
    · intro hall
      refine ⟨hsplit.mpr (fun i hi => hall i (by omega)), ?_⟩
      intro hrpos
      apply (byte_top_bits_iff (d.getD (bits / 8) 0) hbyteq (bits % 8)
        (le_of_lt hr8)).mp
      intro j hj
      have h1 : (8 * (bits / 8) + j) / 8 = bits / 8 := by omega
      have h2 : (8 * (bits / 8) + j) % 8 = j := by omega
      have := hall (8 * (bits / 8) + j) (by omega)
      simp only [msbBit] at this
      rw [h1, h2] at this
      exact this
  · intro d' hlen' hagree
    have hqlt' : bits / 8 < d'.length := by omega
    have htake : d.take (bits / 8) = d'.take (bits / 8) := by
      apply List.ext_getElem?
      intro i
      rw [List.getElem?_take, List.getElem?_take]
      by_cases hi : i < bits / 8
      · rw [if_pos hi, if_pos hi]
        exact hagree i (le_of_lt hi)
      · rw [if_neg hi, if_neg hi]
    have hhead : d[bits / 8]? = d'[bits / 8]? := hagree _ (le_refl _)
    have hq : ¬ (bits / 8 > d.length) := by omega
    have hq' : ¬ (bits / 8 > d'.length) := by omega
    simp only [checkBits, if_neg hq, if_neg hq', htake, hhead]

/-- Witness for `checkBits_spec` at `d = [7, 255, 0, 0, 0, 0, 0, 0]`,
`bits = 5`: the digest `0x07 0xff …` has exactly 5 leading zero bits. -/
theorem checkBits_spec_witness :
    (checkBits [7, 255, 0, 0, 0, 0, 0, 0] 5 = some true ↔
      hasLeadingZeroBits [7, 255, 0, 0, 0, 0, 0, 0] 5) ∧
    (checkBits [7, 255, 0, 0, 0, 0, 0, 0] 5 = some true ↔
      ((∀ b ∈ List.take (5 / 8) [7, 255, 0, 0, 0, 0, 0, 0], b = 0) ∧
        (0 < 5 % 8 →
          List.getD [7, 255, 0, 0, 0, 0, 0, 0] (5 / 8) 0 < 2 ^ (8 - 5 % 8)))) ∧
    (∀ d', 8 ≤ d'.length →
      (∀ i, i ≤ 5 / 8 → [7, 255, 0, 0, 0, 0, 0, 0][i]? = d'[i]?) →
      checkBits [7, 255, 0, 0, 0, 0, 0, 0] 5 = checkBits d' 5) ∧
    checkBits [7, 255, 0, 0, 0, 0, 0, 0] 0 = some true :=
  checkBits_spec [7, 255, 0, 0, 0, 0, 0, 0] 5 (by decide) (by decide)
    (by decide)

/-! ## Decimal text (strconv.FormatInt, strconv.Atoi, strconv.ParseInt) -/

def digitChar (n : Nat) : Char := Char.ofNat (48 + n)

/-- Digit-emission loop of decimal formatting, with an explicit fuel bound
for structural termination; any `fuel > n` gives the digits of `n`. -/
def natToDecAux : Nat → Nat → List Char
  | 0, _ => []
  | f + 1, n =>
    if n < 10 then [digitChar n]
    else natToDecAux f (n / 10) ++ [digitChar (n % 10)]

/-- Base-10 text of a natural number: Go `fmt %d` on `uint`, and
`strconv.FormatInt` restricted to non-negative input. -/
def natToDec (n : Nat) : List Char := natToDecAux (n + 1) n

/-- Base-10 text of a signed integer (`strconv.FormatInt(i, 10)`). -/
def intToDec (z : Int) : List Char :=
  if z < 0 then '-' :: natToDec z.natAbs else natToDec z.toNat

/-- The digit-accumulation loop of Go `strconv.ParseUint` (base 10) over a
byte string. -/
def parseDecLoop (acc : Nat) : List Nat → Option Nat
  | [] => some acc
  | b :: bs =>
    if 48 ≤ b ∧ b ≤ 57 then parseDecLoop (acc * 10 + (b - 48)) bs else none

/-- Go `strconv.ParseUint(s, 10, _)` without the range check: all bytes must
be ASCII digits and the string must be non-empty. -/
def parseDecDigits (bs : List Nat) : Option Nat :=
  if bs = [] then none else parseDecLoop 0 bs

/-- Go `strconv.ParseInt(s, 10, bitSize)`: an optional sign, then digits,
then a signed-range check.  The Go code detects overflow while accumulating;
computing the exact value first and checking the range afterwards returns
the same outcomes.  `strconv.Atoi` is this with `bitSize = 64` (Go `int` is
64-bit on the target platforms). -/
def goParseIntSigned : List Nat → Option Int
  | [] => none
  | b :: rest =>
    if b = 43 then (parseDecDigits rest).map Int.ofNat
    else if b = 45 then (parseDecDigits rest).map (fun n => -Int.ofNat n)
    else (parseDecDigits (b :: rest)).map Int.ofNat

def goParseInt (bs : List Nat) (bitSize : Nat) : Option Int :=
  (goParseIntSigned bs).bind (fun z =>
    if -(2 ^ (bitSize - 1) : Int) ≤ z ∧ z < 2 ^ (bitSize - 1) then some z
    else none)

/-! ## Standard base64 (encoding/base64, StdEncoding) -/

def b64Alphabet : List Char :=
  "ABCDEFGHIJKLMNOPQRSTUVWXYZabcdefghijklmnopqrstuvwxyz0123456789+/".toList

def b64Char (n : Nat) : Char := b64Alphabet.getD n 'A'

def b64Index (c : Char) : Option Nat := b64Alphabet.indexOf? c

/-- `base64.StdEncoding.EncodeToString` over a byte list. -/
def b64Encode : List Nat → List Char
  | a :: b :: c :: rest =>
    b64Char (a / 4) :: b64Char (a % 4 * 16 + b / 16) ::
      b64Char (b % 16 * 4 + c / 64) :: b64Char (c % 64) :: b64Encode rest
  | [a, b] => [b64Char (a / 4), b64Char (a % 4 * 16 + b / 16),
      b64Char (b % 16 * 4), '=']
  | [a] => [b64Char (a / 4), b64Char (a % 4 * 16), '=', '=']
  | [] => []

/-- `base64.StdEncoding.DecodeString`: four-character groups, padding `=`
only at the very end, any non-alphabet character rejected.  Like Go's
decoder, unused trailing bits of the final group are not required to be
zero. -/
def b64Decode : List Char → Option (List Nat)
  | [] => some []
  | c1 :: c2 :: c3 :: c4 :: rest => do
    let a ← b64Index c1
    let b ← b64Index c2
    if c3 = '=' then
      if c4 = '=' ∧ rest = [] then some [a * 4 + b / 16] else none
    else do
      let c ← b64Index c3
      if c4 = '=' then
        if rest = [] then some [a * 4 + b / 16, b % 16 * 16 + c / 4]
        else none
      else do
        let e ← b64Index c4
        let tail ← b64Decode rest
        some ((a * 4 + b / 16) :: (b % 16 * 16 + c / 4) ::
          (c % 4 * 64 + e) :: tail)
  | _ => none

/-! ## The date field -/

def isDigit (c : Char) : Bool := 48 ≤ c.toNat && c.toNat ≤ 57

def digitVal (c : Char) : Nat := c.toNat - 48

/-- Modelled from the spec: the source validates the date field with the
third-party `timefmt` library (`timefmt.Parse(date, "%y%m%d%H%M")`), whose
code is not part of this repository.  The spec describes the check as "the
date field does not match the fixed-width timestamp format" `YYMMDDHHMM`
(two-digit year, month, day, hour and minute, minute granularity, syntactic
check only), which we model as exactly ten ASCII digits with the month in
01–12, the day in 01–31, the hour in 00–23 and the minute in 00–59. -/
def dateOkFields : List Char → Bool
  | [_, _, m1, m2, d1, d2, h1, h2, n1, n2] =>
    let mo := digitVal m1 * 10 + digitVal m2
    let da := digitVal d1 * 10 + digitVal d2
    let ho := digitVal h1 * 10 + digitVal h2
    let mi := digitVal n1 * 10 + digitVal n2
    decide (1 ≤ mo) && decide (mo ≤ 12) && decide (1 ≤ da) &&
      decide (da ≤ 31) && decide (ho ≤ 23) && decide (mi ≤ 59)
  | _ => false

def dateOk (s : List Char) : Bool := s.all isDigit && dateOkFields s

/-! ## The Header type and its codec (hashcash.go:17-108) -/

/-- The single supported protocol version (hashcash.go:18). -/
def Version : Nat := 1

/-- `Header` (hashcash.go:24-31).  `version` is Go `uint8`, `bits` is Go
`uint`, `counter` is Go `int64`; the string fields are Go strings. -/
structure Header where
  version : Nat
  bits : Nat
  date : List Char
  resource : List Char
  random : List Char
  counter : Int
  deriving DecidableEq, Repr

/-- Go `uint(z)` for an `int` value `z`: reduction modulo `2 ^ 64`. -/
def uintOfInt (z : Int) : Nat := (z % (2 ^ 64 : Int)).toNat

/-- Go `uint8(z)` for an `int` value `z`: reduction modulo `2 ^ 8`. -/
def uint8OfInt (z : Int) : Nat := (z % (2 ^ 8 : Int)).toNat

/-- `Header.String` (hashcash.go:55-58): the format string
`"%d:%d:%s:%s::%s:%s"` applied to the constant `Version`, `bits`, `date`,
`resource`, `random` and the base64 of the decimal text of `counter`;
field five (extensions) is always empty. -/
def headerString (h : Header) : List Char :=
  [':'].intercalate
    [natToDec Version, natToDec h.bits, h.date, h.resource, [], h.random,
      b64Encode ((intToDec h.counter).map Char.toNat)]

/-- The error kinds of `ParseHeaderString` (hashcash.go:61-108), in source
order. -/
inductive ParseErr
  | malformedHeader
  | badVersionText
  | unsupportedVersion
  | invalidBits
  | invalidDate
  | invalidCounterEncoding
  | invalidCounterText
  deriving DecidableEq, Repr

/-- The body of `ParseHeaderString` after the split on `':'`
(hashcash.go:63-107).  Field five (`split[4]`, extensions) is read but
ignored; the version and bits fields go through `strconv.Atoi` (note: the
source checks only that `Atoi` succeeds on the bits field, and converts the
resulting `int` to `uint`); the counter field is base64-decoded and the
decoded bytes parsed with `strconv.ParseInt(_, 10, 64)`. -/
def parseFields (split : List (List Char)) : Except ParseErr Header :=
  match split with
  | [s0, s1, s2, s3, _s4, s5, s6] =>
    match goParseInt (s0.map Char.toNat) 64 with
    | none => .error .badVersionText
    | some v =>
      if v ≠ (Version : Int) then .error .unsupportedVersion
      else
        match goParseInt (s1.map Char.toNat) 64 with
        | none => .error .invalidBits
        | some bi =>
          if dateOk s2 then
            match b64Decode s6 with
            | none => .error .invalidCounterEncoding
            | some bytes =>
              match goParseInt bytes 64 with
              | none => .error .invalidCounterText
              | some ctr =>
                .ok { version := uint8OfInt v, bits := uintOfInt bi,
                      date := s2, resource := s3, random := s5,
                      counter := ctr }
          else .error .invalidDate
  | _ => .error .malformedHeader

/-- `ParseHeaderString` (hashcash.go:61-108). -/
def ParseHeaderString (header : List Char) : Except ParseErr Header :=
  parseFields (header.splitOn ':')

/-- Well-formedness of a `Header` per the spec's data model (§3): the single
supported version, `bits` a non-negative integer in Go `int` range, the date
in the fixed `YYMMDDHHMM` format, resource and random colon-free (in this
system the resource is a UUID string and the random field is pre-encoded
base64, neither of which can contain `':'`), and the counter in the signed
64-bit range. -/
def ValidHeader (h : Header) : Prop :=
  h.version = 1 ∧ h.bits < 2 ^ 63 ∧ dateOk h.date = true ∧
    ':' ∉ h.resource ∧ ':' ∉ h.random ∧
    -(2 ^ 63) ≤ h.counter ∧ h.counter < 2 ^ 63

instance (h : Header) : Decidable (ValidHeader h) := by
  unfold ValidHeader
  infer_instance

/-! ## Decimal text: properties -/

theorem digitChar_toNat : ∀ k, k < 10 → (digitChar k).toNat = 48 + k := by
  decide

theorem natToDecAux_digits (f : Nat) :
    ∀ n, ∀ c ∈ natToDecAux f n, 48 ≤ c.toNat ∧ c.toNat ≤ 57 := by
  induction f with
  | zero => intro n c hc; simp [natToDecAux] at hc
  | succ f ih =>
    intro n c hc
    simp only [natToDecAux] at hc
    by_cases h : n < 10
    · rw [if_pos h] at hc
      simp only [List.mem_singleton] at hc
      subst hc
      have hdc := digitChar_toNat n h
      omega
    · rw [if_neg h] at hc
      rcases List.mem_append.1 hc with hc2 | hc2
      · exact ih (n / 10) c hc2
      · simp only [List.mem_singleton] at hc2
        subst hc2
        have hdc := digitChar_toNat (n % 10) (Nat.mod_lt _ (by norm_num))
        omega

theorem natToDec_digits (n : Nat) :
    ∀ c ∈ natToDec n, 48 ≤ c.toNat ∧ c.toNat ≤ 57 :=
  natToDecAux_digits (n + 1) n

theorem natToDecAux_ne_nil (f n : Nat) (h : n < f) : natToDecAux f n ≠ [] := by
  cases f with
  | zero => omega
  | succ f =>
    simp only [natToDecAux]
    split <;> simp

theorem natToDec_ne_nil (n : Nat) : natToDec n ≠ [] :=
  natToDecAux_ne_nil (n + 1) n (by omega)

theorem natToDec_no_colon (n : Nat) : ':' ∉ natToDec n := by
  intro hmem
  have hd := natToDec_digits n ':' hmem
  have hcol : (':').toNat = 58 := rfl
  omega

theorem parseDecLoop_append (f : Nat) : ∀ n acc rest, n < f →
    parseDecLoop acc ((natToDecAux f n).map Char.toNat ++ rest) =
      parseDecLoop (acc * 10 ^ (natToDecAux f n).length + n) rest := by
  induction f with
  | zero => intro n _ _ h; omega
  | succ f ih =>
    intro n acc rest hnf
    by_cases h : n < 10
    · simp only [natToDecAux, if_pos h, List.map_cons, List.map_nil,
        List.cons_append, List.nil_append, List.length_cons, List.length_nil,
        parseDecLoop, digitChar_toNat n h]
      rw [if_pos (by omega)]
      congr 1
      rw [pow_one]
      omega
    · have hdiv : n / 10 < f := by omega
      simp only [natToDecAux, if_neg h, List.map_append, List.append_assoc,
        List.length_append, List.map_cons, List.map_nil, List.cons_append,
        List.nil_append, List.length_cons, List.length_nil]
      rw [ih (n / 10) acc _ hdiv]
      simp only [parseDecLoop,
        digitChar_toNat (n % 10) (Nat.mod_lt _ (by norm_num))]
      rw [if_pos (by omega)]
      congr 1
      generalize (natToDecAux f (n / 10)).length = L
      rw [pow_succ, ← Nat.mul_assoc]
      generalize acc * 10 ^ L = A
      omega

theorem parseDecDigits_natToDec (n : Nat) :
    parseDecDigits ((natToDec n).map Char.toNat) = some n := by
  have hne : (natToDec n).map Char.toNat ≠ [] := by
    simp only [ne_eq, List.map_eq_nil_iff]
    exact natToDec_ne_nil n
  rw [parseDecDigits, if_neg hne]
  unfold natToDec
  have hl := parseDecLoop_append (n + 1) n 0 [] (by omega)
  rw [List.append_nil] at hl
  rw [hl]
  simp [parseDecLoop]

theorem goParseInt_natToDec (n : Nat) (hn : n < 2 ^ 63) :
    goParseInt ((natToDec n).map Char.toNat) 64 = some (n : Int) := by
  obtain ⟨c, cs, hcons⟩ : ∃ c cs, natToDec n = c :: cs := by
    cases hh : natToDec n with
    | nil => exact absurd hh (natToDec_ne_nil n)
    | cons c cs => exact ⟨c, cs, rfl⟩
  have hd := natToDec_digits n c (by rw [hcons]; exact List.mem_cons_self c cs)
  have hpd := parseDecDigits_natToDec n
  rw [hcons] at hpd
  rw [hcons]
  simp only [List.map_cons] at hpd ⊢
  rw [goParseInt, goParseIntSigned]
  rw [if_neg (by omega), if_neg (by omega), hpd]
  rw [Option.map_some', Option.some_bind, Int.ofNat_eq_natCast]
  rw [if_pos (by omega)]

theorem goParseInt_intToDec (z : Int) (h1 : -(2 ^ 63) ≤ z) (h2 : z < 2 ^ 63) :
    goParseInt ((intToDec z).map Char.toNat) 64 = some z := by
  by_cases hz : z < 0
  · rw [intToDec, if_pos hz]
    have hpd := parseDecDigits_natToDec z.natAbs
    simp only [List.map_cons]
    rw [goParseInt, goParseIntSigned]
    rw [show ('-').toNat = 45 from rfl]
    rw [if_neg (by omega), if_pos rfl, hpd]
    rw [Option.map_some', Option.some_bind]
    rw [show -Int.ofNat z.natAbs = z from by
      rw [Int.ofNat_eq_natCast]
      omega]
    rw [if_pos (by omega)]
  · rw [intToDec, if_neg hz]
    have h3 : z.toNat < 2 ^ 63 := by omega
    rw [goParseInt_natToDec z.toNat h3]
    have hcast : ((z.toNat : Nat) : Int) = z := Int.toNat_of_nonneg (by omega)
    rw [hcast]

theorem intToDec_bytes_lt (z : Int) :
    ∀ x ∈ (intToDec z).map Char.toNat, x < 256 := by
  intro x hx
  simp only [List.mem_map] at hx
  obtain ⟨c, hc, rfl⟩ := hx
  rw [intToDec] at hc
  split at hc
  · rcases List.mem_cons.1 hc with rfl | hc2
    · decide
    · have := natToDec_digits _ c hc2
      omega
  · have := natToDec_digits _ c hc
    omega

theorem intToDec_no_colon (z : Int) : ':' ∉ intToDec z := by
  intro hmem
  rw [intToDec] at hmem
  have hcol : (':').toNat = 58 := rfl
  split at hmem
  · rcases List.mem_cons.1 hmem with heq | hc2
    · exact absurd heq (by decide)
    · have := natToDec_digits _ ':' hc2
      omega
  · have := natToDec_digits _ ':' hmem
    omega

/-! ## Base64: properties -/

set_option maxRecDepth 4000 in
theorem b64Index_b64Char : ∀ n, n < 64 → b64Index (b64Char n) = some n := by
  decide

theorem b64Char_ne_pad : ∀ n, n < 64 → b64Char n ≠ '=' := by decide

theorem b64Char_ne_colon : ∀ n, n < 64 → b64Char n ≠ ':' := by decide

theorem b64Encode_no_colon : ∀ bs : List Nat, (∀ x ∈ bs, x < 256) →
    ':' ∉ b64Encode bs
  | [], _ => by simp [b64Encode]
  | [a], h => by
    have ha : a < 256 := h a (by simp)
    simp only [b64Encode, List.mem_cons, List.not_mem_nil, or_false]
    push_neg
    refine ⟨?_, ?_, by decide, by decide⟩
    · exact fun heq => b64Char_ne_colon (a / 4) (by omega) heq.symm
    · exact fun heq => b64Char_ne_colon (a % 4 * 16) (by omega) heq.symm
  | [a, b], h => by
    have ha : a < 256 := h a (by simp)
    have hb : b < 256 := h b (by simp)
    simp only [b64Encode, List.mem_cons, List.not_mem_nil, or_false]
    push_neg
    refine ⟨?_, ?_, ?_, by decide⟩
    · exact fun heq => b64Char_ne_colon (a / 4) (by omega) heq.symm
    · exact fun heq => b64Char_ne_colon (a % 4 * 16 + b / 16) (by omega) heq.symm
    · exact fun heq => b64Char_ne_colon (b % 16 * 4) (by omega) heq.symm
  | a :: b :: c :: rest, h => by
    have ha : a < 256 := h a (by simp)
    have hb : b < 256 := h b (by simp)
    have hc : c < 256 := h c (by simp)
    have ih := b64Encode_no_colon rest (fun x hx => h x (by simp [hx]))
    simp only [b64Encode, List.mem_cons]
    push_neg
    refine ⟨?_, ?_, ?_, ?_, ih⟩
    · exact fun heq => b64Char_ne_colon (a / 4) (by omega) heq.symm
    · exact fun heq => b64Char_ne_colon (a % 4 * 16 + b / 16) (by omega) heq.symm
    · exact fun heq => b64Char_ne_colon (b % 16 * 4 + c / 64) (by omega) heq.symm
    · exact fun heq => b64Char_ne_colon (c % 64) (by omega) heq.symm

theorem b64Decode_b64Encode : ∀ bs : List Nat, (∀ x ∈ bs, x < 256) →
    b64Decode (b64Encode bs) = some bs
  | [], _ => rfl
  | [a], h => by
    have ha : a < 256 := h a (by simp)
    have h1 := b64Index_b64Char (a / 4) (by omega)
    have h2 := b64Index_b64Char (a % 4 * 16) (by omega)
    simp [b64Encode, b64Decode, h1, h2]
    omega
  | [a, b], h => by
    have ha : a < 256 := h a (by simp)
    have hb : b < 256 := h b (by simp)
    have h1 := b64Index_b64Char (a / 4) (by omega)
    have h2 := b64Index_b64Char (a % 4 * 16 + b / 16) (by omega)
    have h3 := b64Index_b64Char (b % 16 * 4) (by omega)
    have hp3 := b64Char_ne_pad (b % 16 * 4) (by omega)
    simp [b64Encode, b64Decode, h1, h2, h3, hp3]
    omega
  | a :: b :: c :: rest, h => by
    have ha : a < 256 := h a (by simp)
    have hb : b < 256 := h b (by simp)
    have hc : c < 256 := h c (by simp)
    have ih := b64Decode_b64Encode rest (fun x hx => h x (by simp [hx]))
    have h1 := b64Index_b64Char (a / 4) (by omega)
    have h2 := b64Index_b64Char (a % 4 * 16 + b / 16) (by omega)
    have h3 := b64Index_b64Char (b % 16 * 4 + c / 64) (by omega)
    have h4 := b64Index_b64Char (c % 64) (by omega)
    have hp3 := b64Char_ne_pad (b % 16 * 4 + c / 64) (by omega)
    have hp4 := b64Char_ne_pad (c % 64) (by omega)
    simp [b64Encode, b64Decode, h1, h2, h3, h4, hp3, hp4, ih]
    refine ⟨by omega, by omega, by omega⟩

/-! ## Date field: properties -/

theorem dateOk_no_colon (s : List Char) (h : dateOk s = true) : ':' ∉ s := by
  intro hmem
  rw [dateOk, Bool.and_eq_true] at h
  have hd := List.all_eq_true.mp h.1 ':' hmem
  exact absurd hd (by decide)

/-! ## The serialize→parse round trip -/

theorem splitOn_headerString (h : Header) (hv : ValidHeader h) :
    (headerString h).splitOn ':' =
      [natToDec Version, natToDec h.bits, h.date, h.resource, [], h.random,
        b64Encode ((intToDec h.counter).map Char.toNat)] := by
  obtain ⟨hver, hbits, hdate, hres, hrand, hc1, hc2⟩ := hv
  rw [headerString]
  apply List.splitOn_intercalate _ ':' _ (by simp)
  intro l hl
  simp only [List.mem_cons, List.not_mem_nil, or_false] at hl
  rcases hl with rfl | rfl | rfl | rfl | rfl | rfl | rfl
  · exact natToDec_no_colon Version
  · exact natToDec_no_colon h.bits
  · exact dateOk_no_colon h.date hdate
  · exact hres
  · simp
  · exact hrand
  · exact b64Encode_no_colon _ (intToDec_bytes_lt h.counter)

theorem parse_headerString_roundtrip (h : Header) (hv : ValidHeader h) :
    ParseHeaderString (headerString h) = .ok h := by
  rw [ParseHeaderString, splitOn_headerString h hv]
  obtain ⟨hver, hbits, hdate, hres, hrand, hc1, hc2⟩ := hv
  have hv1 : goParseInt ((natToDec Version).map Char.toNat) 64 = some 1 := by
    decide
  have hb := goParseInt_natToDec h.bits (by omega)
  have h64 := b64Decode_b64Encode _ (intToDec_bytes_lt h.counter)
  have hctr := goParseInt_intToDec h.counter hc1 hc2
  have huint : uintOfInt (h.bits : Int) = h.bits := by
    rw [uintOfInt]
    omega
  have hu8 : uint8OfInt (1 : Int) = 1 := by decide
  have hvercast : ((Version : Nat) : Int) = 1 := rfl
  simp only [parseFields, hv1, hb, h64, hctr, hdate, huint, hu8, hvercast,
    ne_eq, not_true_eq_false, if_false, if_true, ite_true, ite_false]
  rw [← hver]

/-- C2: a valid `Header` (single supported version, well-formed fields per
the data model) round-trips losslessly: parsing its serialization succeeds
and returns a `Header` equal to it in all fields (the extension field is
always empty on both sides). -/
theorem header_roundtrip (h : Header) (hv : ValidHeader h) :
    ParseHeaderString (headerString h) = .ok h :=
  parse_headerString_roundtrip h hv

/-- Witness for `header_roundtrip` at a concrete valid header. -/
theorem header_roundtrip_witness :
    ParseHeaderString (headerString ⟨1, 12, "2208082121".toList,
      "quote".toList, "cmFuZG9t".toList, -42⟩) =
    Except.ok (⟨1, 12, "2208082121".toList, "quote".toList,
      "cmFuZG9t".toList, -42⟩ : Header) :=
  header_roundtrip _ (by decide)

theorem goParseInt_some_range (bs : List Nat) (v : Int)
    (h : goParseInt bs 64 = some v) : -(2 ^ 63) ≤ v ∧ v < 2 ^ 63 := by
  rw [goParseInt] at h
  cases hs : goParseIntSigned bs with
  | none => rw [hs] at h; simp at h
  | some z =>
    rw [hs, Option.some_bind] at h
    by_cases hcond : -(2 ^ (64 - 1) : Int) ≤ z ∧ z < 2 ^ (64 - 1)
    · rw [if_pos hcond] at h
      have hz := Option.some.inj h
      norm_num at hcond
      omega
    · rw [if_neg hcond] at h
      simp at h

/-- Every field produced by splitting never contains the separator. -/
theorem mem_splitOnP_not_p (p : Char → Bool) (xs : List Char) :
    ∀ f ∈ xs.splitOnP p, ∀ a ∈ f, ¬ p a := by
  induction xs with
  | nil =>
    intro f hf a haf
    simp only [List.splitOnP_nil, List.mem_singleton] at hf
    subst hf
    simp at haf
  | cons x xs ih =>
    intro f hf a haf
    rw [List.splitOnP_cons] at hf
    by_cases hx : p x
    · rw [if_pos hx] at hf
      rcases List.mem_cons.1 hf with rfl | hf2
      · simp at haf
      · exact ih f hf2 a haf
    · rw [if_neg hx] at hf
      cases hsp : xs.splitOnP p with
      | nil => exact absurd hsp (List.splitOnP_ne_nil p xs)
      | cons f0 fs =>
        rw [hsp] at hf
        simp only [List.modifyHead] at hf
        rcases List.mem_cons.1 hf with rfl | hf2
        · rcases List.mem_cons.1 haf with rfl | haf2
          · exact hx
          · exact ih f0 (by rw [hsp]; exact List.mem_cons_self f0 fs) a haf2
        · exact ih f (by rw [hsp]; exact List.mem_cons_of_mem f0 hf2) a haf

theorem mem_splitOn_no_colon (s : List Char) :
    ∀ f ∈ s.splitOn ':', ':' ∉ f := by
  intro f hf hcol
  have := mem_splitOnP_not_p (· == ':') s f hf ':' hcol
  simp at this

/-! ## The PoW engine (hashcash.go:126-202)

The digests come from SHA-256 via the Go standard library, which is not part
of this repository; the engine is therefore parameterised over the digest
function `hashFn : List Char → List Nat` (`getHash` feeds the serialized
header to the hasher and returns the sum).  Where a property needs it, the
hypothesis `∀ s, (hashFn s).length = 32` records the SHA-256 digest size. -/

/-- Go `header.counter++` on `int64`: two's-complement wrap-around. -/
def incCounter (h : Header) : Header :=
  { h with counter :=
      if h.counter = 2 ^ 63 - 1 then -(2 ^ 63) else h.counter + 1 }

/-- The mining loop of `Calculate` (hashcash.go:141-149) with explicit fuel.
`none` means the call has not returned: the loop is still running after
`fuel` iterations (the Go loop is unbounded), or the bit test panicked. -/
def calcLoop (hashFn : List Char → List Nat) (h : Header) :
    Nat → Option (List Char)
  | 0 => none
  | fuel + 1 =>
    match checkBits (hashFn (headerString h)) h.bits with
    | none => none
    | some true => some (headerString h)
    | some false => calcLoop hashFn (incCounter h) fuel

/-- `Calculate` (hashcash.go:134-150): parse the challenge (propagating the
parse error), then mine. -/
def Calculate (hashFn : List Char → List Nat) (headerStr : List Char)
    (fuel : Nat) : Except ParseErr (Option (List Char)) :=
  match ParseHeaderString headerStr with
  | .error e => .error e
  | .ok h => .ok (calcLoop hashFn h fuel)

/-- The error outcomes of `Verify` (hashcash.go:159-186), in source order:
the two parse failures are distinguished, and a result header that does not
correspond to the challenge is the `challengeMismatch` error
(hashcash.go:170-177). -/
inductive VerifyErr
  | parseCalculated (e : ParseErr)
  | parseChallenge (e : ParseErr)
  | challengeMismatch
  deriving DecidableEq, Repr

/-- `Verify` (hashcash.go:159-186).  The outer `Option` models the bit
test's potential panic (`none`); a digest that fails the bit test returns
`some (.ok false)` — a normal result, not an error. -/
def Verify (hashFn : List Char → List Nat) (calculated challenge : List Char) :
    Option (Except VerifyErr Bool) :=
  match ParseHeaderString calculated with
  | .error e => some (.error (.parseCalculated e))
  | .ok calculatedHeader =>
    match ParseHeaderString challenge with
    | .error e => some (.error (.parseChallenge e))
    | .ok challengeHeader =>
      if calculatedHeader.version ≠ challengeHeader.version ∨
          calculatedHeader.bits ≠ challengeHeader.bits ∨
          calculatedHeader.date ≠ challengeHeader.date ∨
          calculatedHeader.resource ≠ challengeHeader.resource ∨
          calculatedHeader.random ≠ challengeHeader.random then
        some (.error .challengeMismatch)
      else
        (checkBits (hashFn (headerString calculatedHeader))
          calculatedHeader.bits).map Except.ok

/-! ## Verify: challenge mismatch (C4) -/

/-- C4: for two header strings that both parse, `Verify` returns the
challenge-mismatch error exactly when one of version, bits, date, resource
or random differs (counter is the only field allowed to differ, regardless
of digest validity); when all five agree it returns the outcome of the bit
test on the result header's digest with no error — a failing digest is
`some (.ok false)`, a normal result. -/
theorem verify_mismatch_spec (hashFn : List Char → List Nat)
    (a b : List Char) (ha hb : Header)
    (hpa : ParseHeaderString a = .ok ha) (hpb : ParseHeaderString b = .ok hb) :
    (Verify hashFn a b = some (.error .challengeMismatch) ↔
      (ha.version ≠ hb.version ∨ ha.bits ≠ hb.bits ∨ ha.date ≠ hb.date ∨
        ha.resource ≠ hb.resource ∨ ha.random ≠ hb.random)) ∧
    ((ha.version = hb.version ∧ ha.bits = hb.bits ∧ ha.date = hb.date ∧
        ha.resource = hb.resource ∧ ha.random = hb.random) →
      Verify hashFn a b =
        (checkBits (hashFn (headerString ha)) ha.bits).map Except.ok) := by
  have hV : Verify hashFn a b =
      if ha.version ≠ hb.version ∨ ha.bits ≠ hb.bits ∨ ha.date ≠ hb.date ∨
          ha.resource ≠ hb.resource ∨ ha.random ≠ hb.random then
        some (.error .challengeMismatch)
      else
        (checkBits (hashFn (headerString ha)) ha.bits).map Except.ok := by
    rw [Verify, hpa, hpb]
  by_cases hcond : ha.version ≠ hb.version ∨ ha.bits ≠ hb.bits ∨
      ha.date ≠ hb.date ∨ ha.resource ≠ hb.resource ∨ ha.random ≠ hb.random
  · rw [if_pos hcond] at hV
    refine ⟨⟨fun _ => hcond, fun _ => hV⟩, fun heq => ?_⟩
    rcases hcond with hc | hc | hc | hc | hc
    · exact absurd heq.1 hc
    · exact absurd heq.2.1 hc
    · exact absurd heq.2.2.1 hc
    · exact absurd heq.2.2.2.1 hc
    · exact absurd heq.2.2.2.2 hc
  · rw [if_neg hcond] at hV
    refine ⟨⟨fun hEq => ?_, fun hd => absurd hd hcond⟩, fun _ => hV⟩
    rw [hV] at hEq
    cases hcb : checkBits (hashFn (headerString ha)) ha.bits with
    | none => rw [hcb] at hEq; simp at hEq
    | some bb => rw [hcb] at hEq; simp at hEq

/-! ## Parsing ignores the extension field (C10) -/

theorem parseFields_extension_irrelevant (s0 s1 s2 s3 e e' s5 s6 :
    List Char) :
    parseFields [s0, s1, s2, s3, e, s5, s6] =
      parseFields [s0, s1, s2, s3, e', s5, s6] := rfl

/-- C10: two 7-field header strings that differ only in the fifth
(extension) field parse to identical outcomes, and serialization always
emits an empty extension field. -/
theorem extension_ignored :
    (∀ (s t s0 s1 s2 s3 e e' s5 s6 : List Char),
      s.splitOn ':' = [s0, s1, s2, s3, e, s5, s6] →
      t.splitOn ':' = [s0, s1, s2, s3, e', s5, s6] →
      ParseHeaderString s = ParseHeaderString t) ∧
    (∀ h : Header, ValidHeader h →
      ((headerString h).splitOn ':')[4]? = some []) := by
  constructor
  · intro s t s0 s1 s2 s3 e e' s5 s6 hs ht
    rw [ParseHeaderString, ParseHeaderString, hs, ht]
    exact parseFields_extension_irrelevant s0 s1 s2 s3 e e' s5 s6
  · intro h hv
    rw [splitOn_headerString h hv]
    rfl

/-- Witness for `extension_ignored`: the extension field content `EXT`
versus empty does not change the parse, and a concrete valid header
serializes with an empty fifth field. -/
theorem extension_ignored_witness :
    ParseHeaderString "1:2:2201010000:res:EXT:rnd:MQ==".toList =
      ParseHeaderString "1:2:2201010000:res::rnd:MQ==".toList ∧
    ((headerString ⟨1, 2, "2201010000".toList, "res".toList, "rnd".toList,
      1⟩).splitOn ':')[4]? = some [] :=
  ⟨extension_ignored.1 "1:2:2201010000:res:EXT:rnd:MQ==".toList
      "1:2:2201010000:res::rnd:MQ==".toList "1".toList "2".toList
      "2201010000".toList "res".toList "EXT".toList "".toList "rnd".toList
      "MQ==".toList (by decide) (by decide),
    extension_ignored.2 _ (by decide)⟩

/-! ## Parsed headers always carry the supported version (C9) -/

theorem parse_ok_version (s : List Char) (h : Header)
    (hp : ParseHeaderString s = .ok h) : h.version = 1 := by
  rw [ParseHeaderString] at hp
  unfold parseFields at hp
  split at hp
  case _ s0 s1 s2 s3 s4 s5 s6 =>
    split at hp
    · exact absurd hp (by simp)
    case _ v hv =>
      split at hp
      · exact absurd hp (by simp)
      case _ hvne =>
        split at hp
        · exact absurd hp (by simp)
        case _ bi hbi =>
          split at hp
          · split at hp
            · exact absurd hp (by simp)
            case _ bytes hbytes =>
              split at hp
              · exact absurd hp (by simp)
              case _ ctr hctr =>
                have hrec := Except.ok.inj hp
                have hv1 : v = (1 : Int) := by
                  push_neg at hvne
                  simpa [Version] using hvne
                rw [← hrec, hv1]
                show uint8OfInt 1 = 1
                decide
          · exact absurd hp (by simp)
  case _ => exact absurd hp (by simp)

deriving instance DecidableEq for Except

/-- A concrete parsed result header used by witnesses. -/
def wHeaderA : Header :=
  ⟨1, 2, "2201010000".toList, "r".toList, "x".toList, 1⟩

/-- A concrete parsed challenge header (counter differs from `wHeaderA`). -/
def wHeaderB : Header :=
  ⟨1, 2, "2201010000".toList, "r".toList, "x".toList, 2⟩

/-- Witness for `verify_mismatch_spec`: two headers equal in the five bound
fields and differing in the counter. -/
theorem verify_mismatch_spec_witness :
    (Verify (fun _ => [0, 0]) "1:2:2201010000:r::x:MQ==".toList
        "1:2:2201010000:r::x:Mg==".toList = some (.error .challengeMismatch) ↔
      (wHeaderA.version ≠ wHeaderB.version ∨ wHeaderA.bits ≠ wHeaderB.bits ∨
        wHeaderA.date ≠ wHeaderB.date ∨
        wHeaderA.resource ≠ wHeaderB.resource ∨
        wHeaderA.random ≠ wHeaderB.random)) ∧
    ((wHeaderA.version = wHeaderB.version ∧ wHeaderA.bits = wHeaderB.bits ∧
        wHeaderA.date = wHeaderB.date ∧
        wHeaderA.resource = wHeaderB.resource ∧
        wHeaderA.random = wHeaderB.random) →
      Verify (fun _ => [0, 0]) "1:2:2201010000:r::x:MQ==".toList
          "1:2:2201010000:r::x:Mg==".toList =
        (checkBits ((fun _ => [0, 0]) (headerString wHeaderA))
          wHeaderA.bits).map Except.ok) :=
  verify_mismatch_spec (fun _ => [0, 0]) "1:2:2201010000:r::x:MQ==".toList
    "1:2:2201010000:r::x:Mg==".toList wHeaderA wHeaderB (by decide) (by decide)

/-- C9: every successfully parsed header has version 1 (the single supported
version), so for any two parsed headers the version-inequality disjunct of
the challenge-mismatch check cannot fire on its own: whenever `Verify`
returns the mismatch error, one of the other four bound fields differs. -/
theorem version_disjunct_unreachable :
    (∀ (s : List Char) (h : Header), ParseHeaderString s = .ok h →
      h.version = 1) ∧
    (∀ (hashFn : List Char → List Nat) (a b : List Char),
      Verify hashFn a b = some (.error .challengeMismatch) →
      ∃ ha hb, ParseHeaderString a = .ok ha ∧ ParseHeaderString b = .ok hb ∧
        ha.version = hb.version ∧
        (ha.bits ≠ hb.bits ∨ ha.date ≠ hb.date ∨ ha.resource ≠ hb.resource ∨
          ha.random ≠ hb.random)) := by
  constructor
  · exact parse_ok_version
  · intro hashFn a b hV
    cases hpa : ParseHeaderString a with
    | error e =>
      have hV2 : Verify hashFn a b = some (.error (.parseCalculated e)) := by
        rw [Verify, hpa]
      rw [hV2] at hV
      simp at hV
    | ok ha =>
      cases hpb : ParseHeaderString b with
      | error e =>
        have hV2 : Verify hashFn a b =
            some (.error (.parseChallenge e)) := by
          rw [Verify, hpa, hpb]
        rw [hV2] at hV
        simp at hV
      | ok hb =>
        have hV2 : Verify hashFn a b =
            if ha.version ≠ hb.version ∨ ha.bits ≠ hb.bits ∨
                ha.date ≠ hb.date ∨ ha.resource ≠ hb.resource ∨
                ha.random ≠ hb.random then
              some (.error .challengeMismatch)
            else
              (checkBits (hashFn (headerString ha)) ha.bits).map
                Except.ok := by
          rw [Verify, hpa, hpb]
        rw [hV2] at hV
        have hvv : ha.version = hb.version := by
          rw [parse_ok_version a ha hpa, parse_ok_version b hb hpb]
        by_cases hcond : ha.version ≠ hb.version ∨ ha.bits ≠ hb.bits ∨
            ha.date ≠ hb.date ∨ ha.resource ≠ hb.resource ∨
            ha.random ≠ hb.random
        · refine ⟨ha, hb, rfl, rfl, hvv, ?_⟩
          rcases hcond with hc | hc | hc | hc | hc
          · exact absurd hvv hc
          · exact Or.inl hc
          · exact Or.inr (Or.inl hc)
          · exact Or.inr (Or.inr (Or.inl hc))
          · exact Or.inr (Or.inr (Or.inr hc))
        · rw [if_neg hcond] at hV
          cases hcb : checkBits (hashFn (headerString ha)) ha.bits with
          | none => rw [hcb] at hV; simp at hV
          | some bb => rw [hcb] at hV; simp at hV

/-- Witness for `version_disjunct_unreachable`: a parsed header and a
mismatch caused by a date difference. -/
theorem version_disjunct_unreachable_witness :
    wHeaderA.version = 1 ∧
    (∃ ha hb, ParseHeaderString "1:2:2201010000:r::x:MQ==".toList = .ok ha ∧
      ParseHeaderString "1:2:2201020000:r::x:MQ==".toList = .ok hb ∧
      ha.version = hb.version ∧
      (ha.bits ≠ hb.bits ∨ ha.date ≠ hb.date ∨ ha.resource ≠ hb.resource ∨
        ha.random ≠ hb.random)) :=
  ⟨version_disjunct_unreachable.1 "1:2:2201010000:r::x:MQ==".toList wHeaderA
      (by decide),
    version_disjunct_unreachable.2 (fun _ => [0, 0])
      "1:2:2201010000:r::x:MQ==".toList "1:2:2201020000:r::x:MQ==".toList
      (by decide)⟩

/-! ## Negative bits are accepted by the parser (C5) -/

/-- C5 counterexample: the spec says a negative bits field must fail with
`InvalidBits`, but the source only checks that `strconv.Atoi` succeeds
(hashcash.go:75-78); `"-5"` parses and `uint(bits)` wraps it to
`2 ^ 64 - 5`, so `ParseHeaderString` returns a `Header` instead of the
error. -/
theorem negative_bits_parse_ok :
    ParseHeaderString "1:-5:2201010000:resource::cmFuZG9t:MTAwMA==".toList =
      .ok ⟨1, 2 ^ 64 - 5, "2201010000".toList, "resource".toList,
        "cmFuZG9t".toList, 1000⟩ := by decide

theorem parseFields_negative_bits (s0 sb s2 s3 s4 s5 s6 : List Char)
    (v : Int) (hb : goParseInt (sb.map Char.toNat) 64 = some v) :
    parseFields [s0, sb, s2, s3, s4, s5, s6] ≠ .error .invalidBits ∧
    (∀ h : Header, parseFields [s0, sb, s2, s3, s4, s5, s6] = .ok h →
      h.bits = uintOfInt v) := by
  constructor
  · intro hbad
    rw [parseFields] at hbad
    split at hbad
    · simp at hbad
    · split at hbad
      · simp at hbad
      · split at hbad
        · rename_i heq
          rw [hb] at heq
          simp at heq
        · rename_i bi heq
          split at hbad
          · split at hbad
            · simp at hbad
            · split at hbad
              · simp at hbad
              · simp at hbad
          · simp at hbad
  · intro h hh
    rw [parseFields] at hh
    split at hh
    · simp at hh
    · split at hh
      · simp at hh
      · split at hh
        · rename_i heq
          rw [hb] at heq
          simp at heq
        · rename_i bi heq
          rw [hb] at heq
          split at hh
          · split at hh
            · simp at hh
            · split at hh
              · simp at hh
              · have hrec := Except.ok.inj hh
                rw [← hrec]
                show uintOfInt bi = uintOfInt v
                rw [← Option.some.inj heq]
          · simp at hh

/-- C5 amended: `ParseHeaderString` fails with `InvalidBits` only when the
bits field is not the base-10 text of an integer accepted by `Atoi`; the
text of a negative integer parses successfully, and the resulting `Header`
carries the value converted to `uint`, i.e. reduced modulo `2 ^ 64` (hence
at least `2 ^ 63`). -/
theorem negative_bits_amended (s : List Char)
    (s0 sb s2 s3 s4 s5 s6 : List Char) (v : Int)
    (hsp : s.splitOn ':' = [s0, sb, s2, s3, s4, s5, s6])
    (hb : goParseInt (sb.map Char.toNat) 64 = some v) (hneg : v < 0) :
    ParseHeaderString s ≠ .error .invalidBits ∧
    (∀ h : Header, ParseHeaderString s = .ok h →
      h.bits = ((v % (2 ^ 64 : Int)).toNat) ∧ 2 ^ 63 ≤ h.bits) := by
  have hrange := goParseInt_some_range (sb.map Char.toNat) v hb
  have hpf := parseFields_negative_bits s0 sb s2 s3 s4 s5 s6 v hb
  rw [ParseHeaderString, hsp]
  refine ⟨hpf.1, fun h hh => ?_⟩
  have hbits := hpf.2 h hh
  rw [hbits, uintOfInt]
  exact ⟨rfl, by omega⟩

/-- Witness for `negative_bits_amended` at the counterexample input. -/
theorem negative_bits_amended_witness :
    ParseHeaderString "1:-5:2201010000:resource::cmFuZG9t:MTAwMA==".toList ≠
      .error .invalidBits ∧
    (∀ h : Header,
      ParseHeaderString "1:-5:2201010000:resource::cmFuZG9t:MTAwMA==".toList =
        .ok h →
      h.bits = (((-5 : Int) % (2 ^ 64 : Int)).toNat) ∧ 2 ^ 63 ≤ h.bits) :=
  negative_bits_amended "1:-5:2201010000:resource::cmFuZG9t:MTAwMA==".toList
    "1".toList "-5".toList "2201010000".toList "resource".toList "".toList
    "cmFuZG9t".toList "MTAwMA==".toList (-5) (by decide) (by decide)
    (by decide)

/-! ## Facts available after a successful parse -/

theorem parse_ok_facts (s : List Char) (h : Header)
    (hp : ParseHeaderString s = .ok h) :
    h.version = 1 ∧ dateOk h.date = true ∧ ':' ∉ h.resource ∧
      ':' ∉ h.random ∧ -(2 ^ 63) ≤ h.counter ∧ h.counter < 2 ^ 63 := by
  have hnc := mem_splitOn_no_colon s
  rw [ParseHeaderString] at hp
  unfold parseFields at hp
  split at hp
  case _ s0 s1 s2 s3 s4 s5 s6 hleq =>
    split at hp
    · exact absurd hp (by simp)
    · rename_i v hv
      split at hp
      · exact absurd hp (by simp)
      · rename_i hvne
        split at hp
        · exact absurd hp (by simp)
        · rename_i bi hbi
          split at hp
          · rename_i hdate
            split at hp
            · exact absurd hp (by simp)
            · rename_i bytes hbytes
              split at hp
              · exact absurd hp (by simp)
              · rename_i ctr hctr
                have hrec := Except.ok.inj hp
                have hv1 : v = (1 : Int) := by
                  push_neg at hvne
                  simpa [Version] using hvne
                have hcrange := goParseInt_some_range bytes ctr hctr
                rw [← hrec]
                refine ⟨?_, hdate, ?_, ?_, hcrange.1, hcrange.2⟩
                · show uint8OfInt v = 1
                  rw [hv1]
                  decide
                · show ':' ∉ s3
                  exact hnc s3 (by rw [hleq]; simp)
                · show ':' ∉ s5
                  exact hnc s5 (by rw [hleq]; simp)
          · exact absurd hp (by simp)
  case _ => exact absurd hp (by simp)

/-! ## The mining loop (C3, C7) -/

theorem checkBits_some_bits_le (d : List Nat) (bits : Nat) (b : Bool)
    (h : checkBits d bits = some b) : bits ≤ 8 * d.length + 7 := by
  by_cases hq : bits / 8 > d.length
  · simp only [checkBits, if_pos hq] at h
    exact absurd h (by simp)
  · omega

theorem calcLoop_spec (hashFn : List Char → List Nat) (fuel : Nat) :
    ∀ (h : Header) (r : List Char),
      -(2 ^ 63) ≤ h.counter → h.counter < 2 ^ 63 →
      calcLoop hashFn h fuel = some r →
      ∃ h' : Header, h'.version = h.version ∧ h'.bits = h.bits ∧
        h'.date = h.date ∧ h'.resource = h.resource ∧
        h'.random = h.random ∧ -(2 ^ 63) ≤ h'.counter ∧
        h'.counter < 2 ^ 63 ∧ r = headerString h' ∧
        checkBits (hashFn (headerString h')) h'.bits = some true := by
  induction fuel with
  | zero =>
    intro h r _ _ hc
    simp [calcLoop] at hc
  | succ fuel ih =>
    intro h r hc1 hc2 hc
    cases hcb : checkBits (hashFn (headerString h)) h.bits with
    | none =>
      have hstep : calcLoop hashFn h (fuel + 1) = none := by
        rw [calcLoop, hcb]
      rw [hstep] at hc
      simp at hc
    | some b =>
      cases b with
      | true =>
        have hstep : calcLoop hashFn h (fuel + 1) =
            some (headerString h) := by
          rw [calcLoop, hcb]
        rw [hstep] at hc
        exact ⟨h, rfl, rfl, rfl, rfl, rfl, hc1, hc2,
          (Option.some.inj hc).symm, hcb⟩
      | false =>
        have hstep : calcLoop hashFn h (fuel + 1) =
            calcLoop hashFn (incCounter h) fuel := by
          rw [calcLoop, hcb]
        rw [hstep] at hc
        have hinc : -(2 ^ 63) ≤ (incCounter h).counter ∧
            (incCounter h).counter < 2 ^ 63 := by
          have hcc : (incCounter h).counter =
              if h.counter = 2 ^ 63 - 1 then -(2 ^ 63)
              else h.counter + 1 := rfl
          rw [hcc]
          split <;> omega
        exact ih (incCounter h) r hinc.1 hinc.2 hc

theorem calculate_ok (hashFn : List Char → List Nat)
    (hlen : ∀ s, (hashFn s).length = 32) (c : List Char) (fuel : Nat)
    (r : List Char) (hc : Calculate hashFn c fuel = .ok (some r)) :
    ∃ hc0 h', ParseHeaderString c = .ok hc0 ∧
      ParseHeaderString r = .ok h' ∧ headerString h' = r ∧
      h'.version = hc0.version ∧ h'.bits = hc0.bits ∧ h'.date = hc0.date ∧
      h'.resource = hc0.resource ∧ h'.random = hc0.random ∧
      checkBits (hashFn r) h'.bits = some true := by
  cases hp : ParseHeaderString c with
  | error e =>
    have hstep : Calculate hashFn c fuel = .error e := by
      rw [Calculate, hp]
    rw [hstep] at hc
    simp at hc
  | ok hc0 =>
    have hstep : Calculate hashFn c fuel =
        .ok (calcLoop hashFn hc0 fuel) := by
      rw [Calculate, hp]
    rw [hstep] at hc
    have hloop := Except.ok.inj hc
    have hfacts := parse_ok_facts c hc0 hp
    obtain ⟨h', hv, hb, hd, hres, hrand, hcr1, hcr2, hr, hcb⟩ :=
      calcLoop_spec hashFn fuel hc0 r hfacts.2.2.2.2.1 hfacts.2.2.2.2.2 hloop
    have hbits_le := checkBits_some_bits_le _ _ _ hcb
    rw [hlen (headerString h')] at hbits_le
    have hvalid : ValidHeader h' := by
      refine ⟨?_, by omega, ?_, ?_, ?_, hcr1, hcr2⟩
      · rw [hv]
        exact hfacts.1
      · rw [hd]
        exact hfacts.2.1
      · rw [hres]
        exact hfacts.2.2.1
      · rw [hrand]
        exact hfacts.2.2.2.1
    have hparse_r : ParseHeaderString r = .ok h' := by
      rw [hr]
      exact parse_headerString_roundtrip h' hvalid
    refine ⟨hc0, h', rfl, hparse_r, hr.symm, hv, hb, hd, hres, hrand, ?_⟩
    rw [hr]
    exact hcb

/-- C3: whenever `Calculate` returns a result for a challenge that parses,
`Verify` accepts that result against the challenge: it returns `true` with
no error.  The hypothesis on `hashFn` records the 32-byte digest size of
SHA-256. -/
theorem verify_calculate (hashFn : List Char → List Nat)
    (hlen : ∀ s, (hashFn s).length = 32) (c : List Char) (fuel : Nat)
    (r : List Char) (hc : Calculate hashFn c fuel = .ok (some r)) :
    Verify hashFn r c = some (.ok true) := by
  obtain ⟨hc0, h', hp, hpr, hhs, hv, hb, hd, hres, hrand, hcb⟩ :=
    calculate_ok hashFn hlen c fuel r hc
  have hV2 : Verify hashFn r c =
      if h'.version ≠ hc0.version ∨ h'.bits ≠ hc0.bits ∨
          h'.date ≠ hc0.date ∨ h'.resource ≠ hc0.resource ∨
          h'.random ≠ hc0.random then
        some (.error .challengeMismatch)
      else
        (checkBits (hashFn (headerString h')) h'.bits).map Except.ok := by
    rw [Verify, hpr, hp]
  rw [hV2, if_neg (by push_neg; exact ⟨hv, hb, hd, hres, hrand⟩)]
  rw [hhs, hcb]
  rfl

/-- Witness for `verify_calculate`: an all-zero digest function makes
`Calculate` succeed immediately, and `Verify` accepts the result. -/
theorem verify_calculate_witness :
    Verify (fun _ => List.replicate 32 0) "1:2:2201010000:r::x:MQ==".toList
      "1:2:2201010000:r::x:MQ==".toList = some (.ok true) :=
  verify_calculate (fun _ => List.replicate 32 0) (fun _ => rfl)
    "1:2:2201010000:r::x:MQ==".toList 1 "1:2:2201010000:r::x:MQ==".toList
    (by decide)

/-- C7: a successful `Calculate` returns a header string that parses, and
whose version, bits, date, resource and random all equal those of the
parsed challenge — the counter is the only field `Calculate` changes. -/
theorem calculate_counter_only (hashFn : List Char → List Nat)
    (hlen : ∀ s, (hashFn s).length = 32) (c : List Char) (fuel : Nat)
    (r : List Char) (hc : Calculate hashFn c fuel = .ok (some r)) :
    ∃ hr hc0, ParseHeaderString r = .ok hr ∧
      ParseHeaderString c = .ok hc0 ∧ hr.version = hc0.version ∧
      hr.bits = hc0.bits ∧ hr.date = hc0.date ∧
      hr.resource = hc0.resource ∧ hr.random = hc0.random := by
  obtain ⟨hc0, h', hp, hpr, _, hv, hb, hd, hres, hrand, _⟩ :=
    calculate_ok hashFn hlen c fuel r hc
  exact ⟨h', hc0, hpr, hp, hv, hb, hd, hres, hrand⟩

/-- The digest function used by the `calculate_counter_only` witness: the
challenge's own serialization digests to all-ones (failing the bit test,
forcing one counter increment), anything else to all-zeros. -/
def wDigest (s : List Char) : List Nat :=
  if s = "1:2:2201010000:r::x:MQ==".toList then List.replicate 32 255
  else List.replicate 32 0

/-- Witness for `calculate_counter_only`: mining increments the counter
once (MQ== is 1, Mg== is 2) and every other field survives unchanged. -/
theorem calculate_counter_only_witness :
    ∃ hr hc0,
      ParseHeaderString "1:2:2201010000:r::x:Mg==".toList = .ok hr ∧
      ParseHeaderString "1:2:2201010000:r::x:MQ==".toList = .ok hc0 ∧
      hr.version = hc0.version ∧ hr.bits = hc0.bits ∧ hr.date = hc0.date ∧
      hr.resource = hc0.resource ∧ hr.random = hc0.random :=
  calculate_counter_only wDigest
    (by
      intro s
      rw [wDigest]
      split <;> rfl)
    "1:2:2201010000:r::x:MQ==".toList 2 "1:2:2201010000:r::x:Mg==".toList
    (by decide)

/-! ## The shared package-level hasher (C6; hashcash.go:126-127, 198-202)

`Calculate` and `Verify` both call `getHash` with the single package-level
`var hasher = sha256.New()`; `getHash` mutates that object with
`Reset`, `Write`, `Sum`.  The state machine below models such a Go
`hash.Hash` object; an interleaving of two invocations on the shared object
shows one caller receiving the digest of the other caller's data. -/

/-- The mutable state of a Go `hash.Hash`: the bytes absorbed since the
last `Reset`. -/
structure GoHasher where
  buf : List Nat

/-- `hasher.Reset()` (hashcash.go:199). -/
def hasherReset (_ : GoHasher) : GoHasher := ⟨[]⟩

/-- `hasher.Write(data)` (hashcash.go:200). -/
def hasherWrite (st : GoHasher) (data : List Nat) : GoHasher :=
  ⟨st.buf ++ data⟩

/-- `hasher.Sum(nil)` (hashcash.go:201): the digest of the absorbed
bytes, where `digest` abstracts the SHA-256 compression. -/
def hasherSum (digest : List Nat → List Nat) (st : GoHasher) : List Nat :=
  digest st.buf

/-- `getHash(header, hasher)` (hashcash.go:198-202) run in isolation on a
state: Reset, Write, Sum; returns the digest and the final state. -/
def getHashOn (digest : List Nat → List Nat) (st : GoHasher)
    (header : List Nat) : List Nat × GoHasher :=
  let st1 := hasherReset st
  let st2 := hasherWrite st1 header
  (hasherSum digest st2, st2)

/-- C6 (violated by the code): the source shares one package-level hasher
across all `Calculate`/`Verify` invocations, so two concurrent calls A
(input `sA`) and B (input `sB`) can interleave their Reset/Write/Sum steps
on the same state.  Under the interleaving A.Reset, A.Write(sA), B.Reset,
B.Write(sB), A.Sum — impossible with a fresh hash state per invocation —
caller A's `Sum` returns the digest of B's data, not of its own input
(which isolated execution would give): the digest computation is not
independent per invocation. -/
theorem shared_hasher_interleaving (digest : List Nat → List Nat)
    (sA sB : List Nat) (st0 : GoHasher) :
    hasherSum digest
        (hasherWrite (hasherReset (hasherWrite (hasherReset st0) sA)) sB) =
      digest sB ∧
    (getHashOn digest st0 sA).1 = digest sA := by
  simp [hasherSum, hasherWrite, hasherReset, getHashOn]

/-! ## Challenge bits selection (C8; handler ProofOfWork.ServeTCP)

`bits := rand.Intn(h.complexity-10) + 10`.  The random source is modelled
by the value `rnd` that `rand.Intn(complexity - 10)` returned; for a
positive argument `rand.Intn` guarantees `rnd ∈ [0, complexity - 10)`. -/

def serveTCPBits (complexity rnd : Nat) : Nat := rnd + 10

/-- C8: with the configured complexity above 10, every possible value of
the random source yields challenge bits in `[10, complexity)`. -/
theorem serveTCPBits_range (complexity rnd : Nat) (hc : 10 < complexity)
    (hr : rnd < complexity - 10) :
    10 ≤ serveTCPBits complexity rnd ∧
      serveTCPBits complexity rnd < complexity := by
  rw [serveTCPBits]
  omega

/-- Witness for `serveTCPBits_range` at `complexity = 20`, `rnd = 9`. -/
theorem serveTCPBits_range_witness :
    10 ≤ serveTCPBits 20 9 ∧ serveTCPBits 20 9 < 20 :=
  serveTCPBits_range 20 9 (by decide) (by decide)

end PowWow
